import Mathlib

/-!
Verification of the document content translator of DocIdeaGenerator.

The definitions below are a shallow embedding of `google_docs_client.py`:
strings are lists of characters, the Google Docs API surface is modelled by
inductive data, and each Python function is translated into a Lean function
of the same name (module-private underscores dropped).  The regular
expression `\*\*([^*]+)\*\*` used by `_convert_markdown_to_docs_requests`
is embedded as an explicit left-to-right scanner (`findBold` for
`re.finditer`, `removeBold` for `re.sub`), and Python's stable
`list.sort(key=..., reverse=True)` as a stable descending insertion sort.
-/

namespace DocIdea

/-! ## Character-list helpers -/

/-- Longest leading run of characters other than `'*'`, and the rest of the
list.  Used to embed the greedy `[^*]+` part of the bold regular
expression. -/
def takeNonStar : List Char → List Char × List Char
  | [] => ([], [])
  | c :: rest =>
    if c = '*' then ([], c :: rest)
    else
      let (a, b) := takeNonStar rest
      (c :: a, b)

theorem takeNonStar_append (l : List Char) :
    (takeNonStar l).1 ++ (takeNonStar l).2 = l := by
  induction l with
  | nil => rfl
  | cons c rest ih =>
    simp only [takeNonStar]
    split
    · rfl
    · simpa using ih

theorem takeNonStar_snd_length (l : List Char) :
    (takeNonStar l).2.length ≤ l.length := by
  induction l with
  | nil => simp [takeNonStar]
  | cons c rest ih =>
    simp only [takeNonStar]
    split
    · simp
    · simpa using Nat.le_succ_of_le ih

theorem takeNonStar_eq_of_noStar (b : List Char) (tl : List Char)
    (hb : '*' ∉ b) : takeNonStar (b ++ '*' :: tl) = (b, '*' :: tl) := by
  induction b with
  | nil => simp [takeNonStar]
  | cons c rest ih =>
    have hc : c ≠ '*' := by intro h; exact hb (by simp [h])
    have hr : '*' ∉ rest := fun h => hb (by simp [h])
    simp [takeNonStar, hc, ih hr]

theorem takeNonStar_all_noStar (b : List Char) (hb : '*' ∉ b) :
    takeNonStar b = (b, []) := by
  induction b with
  | nil => rfl
  | cons c rest ih =>
    have hc : c ≠ '*' := by intro h; exact hb (by simp [h])
    have hr : '*' ∉ rest := fun h => hb (by simp [h])
    simp [takeNonStar, hc, ih hr]

/-! ## The bold marker scanner

`re.finditer(r'\*\*([^*]+)\*\*', line)` finds, scanning left to right,
every non-overlapping occurrence of two asterisks, one or more
non-asterisk characters, and two asterisks.  `findBold` returns the
`(match.start(), match.end())` pairs of those matches; `removeBold` is
`re.sub(r'\*\*([^*]+)\*\*', r'\1', ...)`, replacing every match by its
delimited content. -/

def findBold : List Char → Nat → List (Nat × Nat)
  | [], _ => []
  | '*' :: '*' :: rest, pos =>
    let p := takeNonStar rest
    match h1 : p.1, h2 : p.2 with
    | _ :: _, '*' :: '*' :: rest2 =>
      (pos, pos + p.1.length + 4) :: findBold rest2 (pos + p.1.length + 4)
    | _, _ => findBold ('*' :: rest) (pos + 1)
  | _ :: rest, pos => findBold rest (pos + 1)
  termination_by l _ => l.length
  decreasing_by
  · have h := takeNonStar_snd_length rest
    rw [h2] at h
    simp only [List.length_cons] at h ⊢
    omega
  · simp
  · simp

def removeBold : List Char → List Char
  | [] => []
  | '*' :: '*' :: rest =>
    let p := takeNonStar rest
    match h1 : p.1, h2 : p.2 with
    | _ :: _, '*' :: '*' :: rest2 => p.1 ++ removeBold rest2
    | _, _ => '*' :: removeBold ('*' :: rest)
  | c :: rest => c :: removeBold rest
  termination_by l => l.length
  decreasing_by
  · have h := takeNonStar_snd_length rest
    rw [h2] at h
    simp only [List.length_cons] at h ⊢
    omega
  · simp
  · simp

theorem findBold_nil (pos : Nat) : findBold [] pos = [] := by
  simp [findBold]

theorem findBold_cons_noStar (c : Char) (l : List Char) (pos : Nat)
    (hc : c ≠ '*') : findBold (c :: l) pos = findBold l (pos + 1) := by
  rw [findBold.eq_def]
  split
  · rename_i heq
    exact absurd heq (by simp)
  · rename_i rest heq
    rw [List.cons.injEq] at heq
    exact absurd heq.1 hc
  · rename_i head rest hno heq
    rw [List.cons.injEq] at heq
    rw [heq.2]

theorem findBold_append_noStar (a : List Char) (l : List Char) (pos : Nat)
    (ha : '*' ∉ a) : findBold (a ++ l) pos = findBold l (pos + a.length) := by
  induction a generalizing pos with
  | nil => simp
  | cons c rest ih =>
    have hc : c ≠ '*' := by intro h; exact ha (by simp [h])
    have hr : '*' ∉ rest := fun h => ha (by simp [h])
    rw [List.cons_append, findBold_cons_noStar c (rest ++ l) pos hc, ih (pos + 1) hr]
    congr 1
    simp
    omega

theorem findBold_match (b c : List Char) (pos : Nat)
    (hb : '*' ∉ b) (hne : b ≠ []) :
    findBold ('*' :: '*' :: (b ++ '*' :: '*' :: c)) pos =
      (pos, pos + b.length + 4) :: findBold c (pos + b.length + 4) := by
  have ht : takeNonStar (b ++ '*' :: ('*' :: c)) = (b, '*' :: '*' :: c) :=
    takeNonStar_eq_of_noStar b ('*' :: c) hb
  rw [findBold.eq_def]
  split
  · rename_i heq
    exact absurd heq (by simp)
  · rename_i rest heq
    rw [List.cons.injEq] at heq
    obtain ⟨h1, heq⟩ := heq
    rw [List.cons.injEq] at heq
    obtain ⟨h2, heq⟩ := heq
    subst heq
    simp only [ht]
    split
    · rename_i rest2 h1 h2
      rw [ht] at h2
      rw [List.cons.injEq] at h2
      obtain ⟨_, h2⟩ := h2
      rw [List.cons.injEq] at h2
      obtain ⟨_, h2⟩ := h2
      subst h2
      rfl
    · rename_i hno
      exfalso
      obtain ⟨x, xs, rfl⟩ : ∃ x xs, b = x :: xs := by
        cases b with
        | nil => exact absurd rfl hne
        | cons x xs => exact ⟨x, xs, rfl⟩
      exact hno x xs c (by rw [ht]) (by rw [ht])
  · rename_i hno heq
    exfalso
    rw [List.cons.injEq] at heq
    exact (hno (b ++ '*' :: '*' :: c) heq.1.symm) heq.2.symm

theorem findBold_noStar (l : List Char) (pos : Nat) (hl : '*' ∉ l) :
    findBold l pos = [] := by
  have h := findBold_append_noStar l [] pos hl
  rw [findBold_nil] at h
  rw [List.append_nil] at h
  exact h

theorem removeBold_nil : removeBold [] = [] := by
  simp [removeBold]

theorem removeBold_cons_noStar (c : Char) (l : List Char)
    (hc : c ≠ '*') : removeBold (c :: l) = c :: removeBold l := by
  rw [removeBold.eq_def]
  split
  · rename_i heq
    exact absurd heq (by simp)
  · rename_i rest heq
    rw [List.cons.injEq] at heq
    exact absurd heq.1 hc
  · rename_i head rest hno heq
    rw [List.cons.injEq] at heq
    rw [heq.1, heq.2]

theorem removeBold_append_noStar (a : List Char) (l : List Char)
    (ha : '*' ∉ a) : removeBold (a ++ l) = a ++ removeBold l := by
  induction a with
  | nil => simp
  | cons c rest ih =>
    have hc : c ≠ '*' := by intro h; exact ha (by simp [h])
    have hr : '*' ∉ rest := fun h => ha (by simp [h])
    rw [List.cons_append, removeBold_cons_noStar c (rest ++ l) hc, ih hr, List.cons_append]

theorem removeBold_match (b c : List Char)
    (hb : '*' ∉ b) (hne : b ≠ []) :
    removeBold ('*' :: '*' :: (b ++ '*' :: '*' :: c)) = b ++ removeBold c := by
  have ht : takeNonStar (b ++ '*' :: ('*' :: c)) = (b, '*' :: '*' :: c) :=
    takeNonStar_eq_of_noStar b ('*' :: c) hb
  rw [removeBold.eq_def]
  split
  · rename_i heq
    exact absurd heq (by simp)
  · rename_i rest heq
    rw [List.cons.injEq] at heq
    obtain ⟨h1, heq⟩ := heq
    rw [List.cons.injEq] at heq
    obtain ⟨h2, heq⟩ := heq
    subst heq
    simp only [ht]
    split
    · rename_i rest2 h1 h2
      rw [ht] at h2
      rw [List.cons.injEq] at h2
      obtain ⟨_, h2⟩ := h2
      rw [List.cons.injEq] at h2
      obtain ⟨_, h2⟩ := h2
      subst h2
      rfl
    · rename_i hno
      exfalso
      obtain ⟨x, xs, rfl⟩ : ∃ x xs, b = x :: xs := by
        cases b with
        | nil => exact absurd rfl hne
        | cons x xs => exact ⟨x, xs, rfl⟩
      exact hno x xs c (by rw [ht]) (by rw [ht])
  · rename_i hno heq
    exfalso
    rw [List.cons.injEq] at heq
    exact (hno (b ++ '*' :: '*' :: c) heq.1.symm) heq.2.symm

theorem removeBold_noStar (l : List Char) (hl : '*' ∉ l) :
    removeBold l = l := by
  have h := removeBold_append_noStar l [] hl
  rw [removeBold_nil] at h
  rw [List.append_nil] at h
  simpa using h

/-- The part before the first asterisk contains no asterisk. -/
theorem noStar_takeNonStar_fst (l : List Char) : '*' ∉ (takeNonStar l).1 := by
  induction l with
  | nil => simp [takeNonStar]
  | cons c rest ih =>
    simp only [takeNonStar]
    split
    · simp
    · rename_i hc
      intro hmem
      rcases List.mem_cons.mp hmem with h | h
      · exact hc h.symm
      · exact ih h

theorem takeNonStar_fst_of_snd_nil (l : List Char)
    (h : (takeNonStar l).2 = []) : (takeNonStar l).1 = l := by
  have := takeNonStar_append l
  rw [h] at this
  simpa using this

theorem takeNonStar_append_snd (l m : List Char)
    (h : (takeNonStar l).2 ≠ []) :
    takeNonStar (l ++ m) = ((takeNonStar l).1, (takeNonStar l).2 ++ m) := by
  induction l with
  | nil => simp [takeNonStar] at h
  | cons c rest ih =>
    by_cases hc : c = '*'
    · subst hc
      simp [takeNonStar]
    · have h2 : (takeNonStar rest).2 ≠ [] := by
        intro h0
        apply h
        simp [takeNonStar, hc, h0]
      have ihh := ih h2
      simp only [List.cons_append, takeNonStar, if_neg hc, List.append_eq, ihh]

/-- Unfolding equation for the catch-all branch: the head is kept whenever
it does not open a double-asterisk pair. -/
theorem removeBold_cons_single (c : Char) (rest : List Char)
    (hno : ∀ rest1, c = '*' → rest = '*' :: rest1 → False) :
    removeBold (c :: rest) = c :: removeBold rest := by
  rw [removeBold.eq_def]
  split
  · rename_i heq
    exact absurd heq (by simp)
  · rename_i rest0 heq
    rw [List.cons.injEq] at heq
    exact absurd heq.2 (fun h => hno rest0 heq.1 h)
  · rename_i head rest0 hno0 heq
    rw [List.cons.injEq] at heq
    rw [heq.1, heq.2]

/-- Unfolding equation for a double asterisk that opens no match: the
scanner keeps the first asterisk and moves on by one character. -/
theorem removeBold_fallback (rest : List Char)
    (hno : ∀ (head : Char) (tail rest2 : List Char),
      (takeNonStar rest).1 = head :: tail →
      (takeNonStar rest).2 = '*' :: '*' :: rest2 → False) :
    removeBold ('*' :: '*' :: rest) = '*' :: removeBold ('*' :: rest) := by
  rcases htn : takeNonStar rest with ⟨p1, p2⟩
  rw [removeBold.eq_def]
  split
  · rename_i heq
    exact absurd heq (by simp)
  · rename_i rest0 heq
    rw [List.cons.injEq] at heq
    obtain ⟨_, heq⟩ := heq
    rw [List.cons.injEq] at heq
    obtain ⟨_, heq⟩ := heq
    subst heq
    simp only [htn]
  · rename_i hno0 heq
    exfalso
    rw [List.cons.injEq] at heq
    exact hno0 rest heq.1.symm heq.2.symm

/-- Unfolding equation for a successful match, stated through the result of
`takeNonStar`. -/
theorem removeBold_match_eq (rest : List Char) (head : Char)
    (tail rest2 : List Char)
    (h1 : (takeNonStar rest).1 = head :: tail)
    (h2 : (takeNonStar rest).2 = '*' :: '*' :: rest2) :
    removeBold ('*' :: '*' :: rest) = (head :: tail) ++ removeBold rest2 := by
  have hsplit := takeNonStar_append rest
  rw [h1, h2] at hsplit
  have hb : '*' ∉ head :: tail := h1 ▸ noStar_takeNonStar_fst rest
  calc removeBold ('*' :: '*' :: rest)
      = removeBold ('*' :: '*' :: ((head :: tail) ++ '*' :: '*' :: rest2)) := by
        rw [hsplit]
    _ = (head :: tail) ++ removeBold rest2 :=
        removeBold_match (head :: tail) rest2 hb (by simp)

/-- Characters of the stripped line all occur in the original line: the
substitution only ever drops asterisks and keeps everything else. -/
theorem mem_of_mem_removeBold (l : List Char) (x : Char)
    (hx : x ∈ removeBold l) : x ∈ l := by
  induction l using removeBold.induct with
  | case1 =>
    rw [removeBold_nil] at hx
    exact absurd hx (by simp)
  | case2 rest p head tail rest2 h1 h2 ih =>
    rw [removeBold_match_eq rest head tail rest2 h1 h2] at hx
    have hsplit := takeNonStar_append rest
    rw [h1, h2] at hsplit
    rcases List.mem_append.mp hx with h | h
    · have : x ∈ rest := by
        rw [← hsplit]
        exact List.mem_append.mpr (Or.inl h)
      simp [this]
    · have hrest2 : x ∈ rest := by
        rw [← hsplit]
        refine List.mem_append.mpr (Or.inr ?_)
        simp [ih h]
      simp [hrest2]
  | case3 rest p hno ih =>
    rw [removeBold_fallback rest hno] at hx
    rcases List.mem_cons.mp hx with h | h
    · simp [h]
    · have := ih h
      rcases List.mem_cons.mp this with h2 | h2
      · simp [h2]
      · simp [h2]
  | case4 c rest hno ih =>
    rw [removeBold_cons_single c rest hno] at hx
    rcases List.mem_cons.mp hx with h | h
    · simp [h]
    · simp [ih h]

/-- Appending the final newline commutes with marker stripping: the
newline can never take part in a match, because a match would need two
asterisks after it. -/
theorem removeBold_append_newline (l : List Char) :
    removeBold (l ++ ['\n']) = removeBold l ++ ['\n'] := by
  induction l using removeBold.induct with
  | case1 =>
    simp only [List.nil_append]
    rw [show (['\n'] : List Char) = '\n' :: [] from rfl,
      removeBold_cons_noStar '\n' [] (by decide), removeBold_nil]
    simp
  | case2 rest p head tail rest2 h1 h2 ih =>
    have hsplit := takeNonStar_append rest
    rw [h1, h2] at hsplit
    have happ : takeNonStar (rest ++ ['\n']) =
        ((takeNonStar rest).1, (takeNonStar rest).2 ++ ['\n']) :=
      takeNonStar_append_snd rest ['\n'] (by rw [h2]; simp)
    rw [h1, h2] at happ
    have h1' : (takeNonStar (rest ++ ['\n'])).1 = head :: tail := by rw [happ]
    have h2' : (takeNonStar (rest ++ ['\n'])).2 = '*' :: '*' :: (rest2 ++ ['\n']) := by
      rw [happ]
      simp
    calc removeBold (('*' :: '*' :: rest) ++ ['\n'])
        = removeBold ('*' :: '*' :: (rest ++ ['\n'])) := by simp
      _ = (head :: tail) ++ removeBold (rest2 ++ ['\n']) :=
          removeBold_match_eq (rest ++ ['\n']) head tail (rest2 ++ ['\n']) h1' h2'
      _ = (head :: tail) ++ (removeBold rest2 ++ ['\n']) := by rw [ih]
      _ = removeBold ('*' :: '*' :: rest) ++ ['\n'] := by
          rw [removeBold_match_eq rest head tail rest2 h1 h2]
          simp
  | case3 rest p hno ih =>
    have hno' : ∀ (head : Char) (tail rest2 : List Char),
        (takeNonStar (rest ++ ['\n'])).1 = head :: tail →
        (takeNonStar (rest ++ ['\n'])).2 = '*' :: '*' :: rest2 → False := by
      intro head tail rest2 g1 g2
      by_cases hs : (takeNonStar rest).2 = []
      · have hfst := takeNonStar_fst_of_snd_nil rest hs
        have hnostar : '*' ∉ rest ++ ['\n'] := by
          intro hmem
          rcases List.mem_append.mp hmem with hm | hm
          · exact noStar_takeNonStar_fst rest (by rw [hfst]; exact hm)
          · simp at hm
        rw [takeNonStar_all_noStar (rest ++ ['\n']) hnostar] at g2
        exact absurd g2 (by simp)
      · have happ := takeNonStar_append_snd rest ['\n'] hs
        have happ1 : (takeNonStar (rest ++ ['\n'])).1 = (takeNonStar rest).1 := by rw [happ]
        have happ2 : (takeNonStar (rest ++ ['\n'])).2 = (takeNonStar rest).2 ++ ['\n'] := by
          rw [happ]
        rw [happ1] at g1
        rw [happ2] at g2
        rcases hsnd : (takeNonStar rest).2 with _ | ⟨s1, stl⟩
        · exact hs hsnd
        · rw [hsnd] at g2
          rcases stl with _ | ⟨s2, stl2⟩
          · simp at g2
          · simp only [List.cons_append, List.cons.injEq] at g2
            exact hno head tail stl2 g1 (by rw [hsnd, g2.1, g2.2.1])
    calc removeBold (('*' :: '*' :: rest) ++ ['\n'])
        = removeBold ('*' :: '*' :: (rest ++ ['\n'])) := by simp
      _ = '*' :: removeBold ('*' :: (rest ++ ['\n'])) :=
          removeBold_fallback (rest ++ ['\n']) hno'
      _ = '*' :: removeBold (('*' :: rest) ++ ['\n']) := by simp
      _ = '*' :: (removeBold ('*' :: rest) ++ ['\n']) := by rw [ih]
      _ = removeBold ('*' :: '*' :: rest) ++ ['\n'] := by
          rw [removeBold_fallback rest hno]
          simp
  | case4 c rest hno ih =>
    have hno' : ∀ rest1, c = '*' → rest ++ ['\n'] = '*' :: rest1 → False := by
      intro rest1 hc hr
      rcases rest with _ | ⟨r1, rtl⟩
      · simp at hr
      · rw [List.cons_append, List.cons.injEq] at hr
        exact hno rtl hc (by rw [hr.1])
    calc removeBold ((c :: rest) ++ ['\n'])
        = removeBold (c :: (rest ++ ['\n'])) := by simp
      _ = c :: removeBold (rest ++ ['\n']) := removeBold_cons_single c (rest ++ ['\n']) hno'
      _ = c :: (removeBold rest ++ ['\n']) := by rw [ih]
      _ = removeBold (c :: rest) ++ ['\n'] := by
          rw [removeBold_cons_single c rest hno]
          simp

/-! ## Lines and whitespace

`_convert_markdown_to_docs_requests` splits its input with
`content.split('\n')` and classifies each line, using `str.strip()`,
`str.startswith` and `str.lstrip('> ')`. -/

/-- The characters `str.strip()` removes (Python's ASCII whitespace). -/
def isPySpace (c : Char) : Bool :=
  c = ' ' || c = '\t' || c = '\n' || c = '\r' || c = '\x0b' || c = '\x0c'

/-- Python `str.strip()`. -/
def pyStrip (l : List Char) : List Char :=
  ((l.dropWhile isPySpace).reverse.dropWhile isPySpace).reverse

/-- Python `content.split('\n')`: always at least one piece, empty pieces
kept. -/
def split_lines : List Char → List (List Char)
  | [] => [[]]
  | c :: rest =>
    if c = '\n' then [] :: split_lines rest
    else
      match split_lines rest with
      | [] => [[c]]
      | l :: ls => (c :: l) :: ls

theorem split_lines_ne_nil (content : List Char) : split_lines content ≠ [] := by
  induction content with
  | nil => simp [split_lines]
  | cons c rest ih =>
    simp only [split_lines]
    split
    · simp
    · rcases h : split_lines rest with _ | ⟨l, ls⟩
      · simp
      · simp

theorem no_newline_of_mem_split_lines (content : List Char) (l : List Char)
    (hl : l ∈ split_lines content) : '\n' ∉ l := by
  induction content generalizing l with
  | nil =>
    simp [split_lines] at hl
    simp [hl]
  | cons c rest ih =>
    simp only [split_lines] at hl
    by_cases hc : c = '\n'
    · rw [if_pos hc] at hl
      rcases List.mem_cons.mp hl with h | h
      · simp [h]
      · exact ih l h
    · rw [if_neg hc] at hl
      rcases hsp : split_lines rest with _ | ⟨m, ms⟩
      · exact absurd hsp (split_lines_ne_nil rest)
      · rw [hsp] at hl
        rcases List.mem_cons.mp hl with h | h
        · subst h
          intro hmem
          rcases List.mem_cons.mp hmem with h2 | h2
          · exact hc h2.symm
          · exact ih m (by rw [hsp]; simp) h2
        · exact ih l (by rw [hsp]; simp [h])

/-! ## Format spans and per-line processing

The loop body of `_convert_markdown_to_docs_requests`: `formatting_map`
entries `(start_index, end_index, format_type, level)` become `FmtSpan`
values, and the text appended to `full_text` for one input line is
computed by `process_line`. -/

inductive FmtKind where
  | heading (level : Nat)
  | bold
  deriving DecidableEq, Repr

structure FmtSpan where
  start : Nat
  stop : Nat
  kind : FmtKind
  deriving DecidableEq, Repr

/-- One iteration of the `for line in lines` loop: the text fragment
appended to `full_text` and the `formatting_map` entries recorded for this
line, given `line_start = len(''.flatten(full_text))`. -/
def process_line (line : List Char) (line_start : Nat) : List Char × List FmtSpan :=
  if "## ".toList <+: line then
    let clean_line := line.drop 3 ++ ['\n']
    (clean_line, [⟨line_start, line_start + clean_line.length - 1, .heading 2⟩])
  else if "# ".toList <+: line then
    let clean_line := line.drop 2 ++ ['\n']
    (clean_line, [⟨line_start, line_start + clean_line.length - 1, .heading 1⟩])
  else if pyStrip line = "---".toList ∨ "────".toList <+: pyStrip line then
    (['\n'], [])
  else
    let spans := (findBold line 0).map
      (fun m => (⟨line_start + m.1, line_start + m.2 - 4, FmtKind.bold⟩ : FmtSpan))
    let processed := removeBold (line ++ ['\n'])
    let processed :=
      if ">".toList <+: pyStrip line then
        "    ".toList ++ processed.dropWhile (fun c => c = '>' || c = ' ')
      else processed
    (processed, spans)

/-- The whole `for line in lines` loop: concatenated `full_text` and the
collected `formatting_map`, threading the running offset. -/
def convert_lines : List (List Char) → Nat → List Char × List FmtSpan
  | [], _ => ([], [])
  | l :: ls, off =>
    let r := process_line l off
    let rest := convert_lines ls (off + r.1.length)
    (r.1 ++ rest.1, r.2 ++ rest.2)

/-- `full_text_str` and `formatting_map` as built from the raw content. -/
def full_text_and_map (content : List Char) : List Char × List FmtSpan :=
  convert_lines (split_lines content) 0

/-! ## Sorting and request emission

`formatting_map.sort(key=lambda x: x[0], reverse=True)` is a stable sort
descending on the span start; it is embedded as an insertion sort that
keeps the relative order of equal keys. -/

def insert_desc (x : FmtSpan) : List FmtSpan → List FmtSpan
  | [] => [x]
  | y :: ys => if x.start ≤ y.start then y :: insert_desc x ys else x :: y :: ys

def sort_desc (l : List FmtSpan) : List FmtSpan :=
  l.foldl (fun acc x => insert_desc x acc) []

inductive DocsRequest where
  | insertText (index : Nat) (text : List Char)
  | updateParagraphStyle (startIndex endIndex level : Nat)
  | updateTextStyle (startIndex endIndex : Nat) (bold : Bool)
  deriving DecidableEq, Repr

/-- One `formatting_map` entry turned into its batchUpdate request, with
the fixed `+ 1` shift into the 1-based Google Docs indexing. -/
def span_to_request (s : FmtSpan) : DocsRequest :=
  match s.kind with
  | .heading level => .updateParagraphStyle (s.start + 1) (s.stop + 1) level
  | .bold => .updateTextStyle (s.start + 1) (s.stop + 1) true

/-- `_convert_markdown_to_docs_requests`: one insertText of the whole
flattened text, then one style request per formatting entry, emitted in
descending order of start offset. -/
def convert_markdown_to_docs_requests (content : List Char) : List DocsRequest :=
  let r := full_text_and_map content
  DocsRequest.insertText 1 r.1 :: (sort_desc r.2).map span_to_request

theorem insert_desc_perm (x : FmtSpan) (l : List FmtSpan) :
    List.Perm (insert_desc x l) (x :: l) := by
  induction l with
  | nil => exact List.Perm.refl _
  | cons y ys ih =>
    simp only [insert_desc]
    split
    · exact (ih.cons y).trans (List.Perm.swap x y ys)
    · exact List.Perm.refl _

theorem sort_desc_perm (l : List FmtSpan) : List.Perm (sort_desc l) l := by
  suffices h : ∀ (l acc : List FmtSpan),
      List.Perm (l.foldl (fun acc x => insert_desc x acc) acc) (acc ++ l) by
    simpa using h l []
  intro l
  induction l with
  | nil => simp
  | cons x xs ih =>
    intro acc
    have step : (x :: xs).foldl (fun acc x => insert_desc x acc) acc
        = xs.foldl (fun acc x => insert_desc x acc) (insert_desc x acc) := rfl
    rw [step]
    exact ((ih (insert_desc x acc)).trans
      ((insert_desc_perm x acc).append_right xs)).trans List.perm_middle.symm

theorem mem_insert_desc (x y : FmtSpan) (l : List FmtSpan)
    (h : y ∈ insert_desc x l) : y = x ∨ y ∈ l :=
  List.mem_cons.mp ((insert_desc_perm x l).mem_iff.mp h)

theorem sorted_insert_desc (x : FmtSpan) (l : List FmtSpan)
    (hl : l.Pairwise (fun a b => b.start ≤ a.start)) :
    (insert_desc x l).Pairwise (fun a b => b.start ≤ a.start) := by
  induction l with
  | nil => simp [insert_desc]
  | cons y ys ih =>
    rw [List.pairwise_cons] at hl
    simp only [insert_desc]
    split
    · rename_i hle
      rw [List.pairwise_cons]
      constructor
      · intro a ha
        rcases mem_insert_desc x a ys ha with h | h
        · rw [h]; exact hle
        · exact hl.1 a h
      · exact ih hl.2
    · rename_i hgt
      rw [List.pairwise_cons]
      constructor
      · intro a ha
        rcases List.mem_cons.mp ha with h | h
        · rw [h]; omega
        · have := hl.1 a h
          omega
      · exact List.pairwise_cons.mpr hl

theorem sort_desc_sorted (l : List FmtSpan) :
    (sort_desc l).Pairwise (fun a b => b.start ≤ a.start) := by
  suffices h : ∀ (l acc : List FmtSpan),
      acc.Pairwise (fun a b => b.start ≤ a.start) →
      (l.foldl (fun acc x => insert_desc x acc) acc).Pairwise
        (fun a b => b.start ≤ a.start) by
    exact h l [] (by simp)
  intro l
  induction l with
  | nil => intro acc hacc; simpa using hacc
  | cons x xs ih =>
    intro acc hacc
    exact ih (insert_desc x acc) (sorted_insert_desc x acc hacc)

/-! ## The structured document model

The slice of the Google Docs API document shape that
`_extract_content_from_elements` and `get_document_content` look at:
structural elements are paragraphs (with a list of paragraph elements,
each either a text run or something else), tables (rows of cells of
structural elements), or anything else; a document optionally carries a
list of named tabs, and always a top-level body. -/

inductive ParaElem where
  | textRun (content : List Char)
  | other
  deriving DecidableEq, Repr

inductive Element where
  | paragraph (elems : List ParaElem)
  | table (rows : List (List (List Element)))
  | other

/-- One step of `for text_run in paragraph.get('elements', [])`: keep the
content of a text run, skip anything else. -/
def para_step (c : List (List Char)) (pe : ParaElem) : List (List Char) :=
  match pe with
  | .textRun s => c ++ [s]
  | .other => c

/-- One step of `for cell_element in cell.get('content', [])`: only
paragraphs are scanned; a table nested inside a cell is skipped. -/
def cell_element_step (c : List (List Char)) (cellElement : Element) : List (List Char) :=
  match cellElement with
  | .paragraph pes => pes.foldl para_step c
  | _ => c

/-- `_extract_content_from_elements`: the `content` list of text-run
strings built by the nested loops. -/
def extract_content_from_elements (elements : List Element) : List (List Char) :=
  elements.foldl
    (fun content element =>
      match element with
      | .paragraph pes => pes.foldl para_step content
      | .table rows =>
        rows.foldl
          (fun c row => row.foldl (fun c cell => cell.foldl cell_element_step c) c)
          content
      | .other => content)
    []

/-- The text runs of one paragraph, in order. -/
def para_texts (pes : List ParaElem) : List (List Char) :=
  pes.filterMap
    (fun pe =>
      match pe with
      | .textRun s => some s
      | .other => none)

/-- What one table cell contributes under the code's one-level scan: only
its paragraph children count. -/
def cell_texts (cell : List Element) : List (List Char) :=
  (cell.map
    (fun ce =>
      match ce with
      | .paragraph pes => para_texts pes
      | _ => [])).flatten

/-- Compositional form of the code's extraction: paragraphs yield their
runs, tables yield rows, then cells, then the runs of each cell's
paragraph children; other nodes yield nothing. -/
def elements_texts (elements : List Element) : List (List Char) :=
  (elements.map
    (fun e =>
      match e with
      | .paragraph pes => para_texts pes
      | .table rows =>
        (rows.map (fun row => (row.map cell_texts).flatten)).flatten
      | .other => [])).flatten

mutual

/-- Modelled from the spec (§4.1): the claimed traversal, which recurses
into each cell's child nodes, so nested tables at arbitrary depth
contribute their text. -/
def spec_flatten_elements : List Element → List Char
  | [] => []
  | e :: rest => spec_flatten_element e ++ spec_flatten_elements rest

def spec_flatten_element : Element → List Char
  | .paragraph pes => (para_texts pes).flatten
  | .table rows => spec_flatten_rows rows
  | .other => []

def spec_flatten_rows : List (List (List Element)) → List Char
  | [] => []
  | row :: rest => spec_flatten_cells row ++ spec_flatten_rows rest

def spec_flatten_cells : List (List Element) → List Char
  | [] => []
  | cell :: rest => spec_flatten_elements cell ++ spec_flatten_cells rest

end

theorem foldl_para_step (pes : List ParaElem) (c : List (List Char)) :
    pes.foldl para_step c = c ++ para_texts pes := by
  induction pes generalizing c with
  | nil => simp [para_texts]
  | cons pe rest ih =>
    cases pe with
    | textRun s => simp [para_step, para_texts, ih]
    | other => simp [para_step, para_texts, ih]

theorem foldl_cell_element_step (cell : List Element) (c : List (List Char)) :
    cell.foldl cell_element_step c = c ++ cell_texts cell := by
  induction cell generalizing c with
  | nil => simp [cell_texts]
  | cons ce rest ih =>
    cases ce with
    | paragraph pes =>
      simp only [List.foldl_cons, cell_element_step, foldl_para_step, ih,
        cell_texts, List.map_cons, List.flatten_cons]
      simp
    | table rows =>
      simp only [List.foldl_cons, cell_element_step, ih, cell_texts,
        List.map_cons, List.flatten_cons]
      simp
    | other =>
      simp only [List.foldl_cons, cell_element_step, ih, cell_texts,
        List.map_cons, List.flatten_cons]
      simp

theorem foldl_row (row : List (List Element)) (c : List (List Char)) :
    row.foldl (fun c cell => cell.foldl cell_element_step c) c
      = c ++ (row.map cell_texts).flatten := by
  induction row generalizing c with
  | nil => simp
  | cons cell rest ih =>
    rw [List.foldl_cons, foldl_cell_element_step, ih]
    simp

theorem extract_content_eq_elements_texts (elements : List Element) :
    extract_content_from_elements elements = elements_texts elements := by
  suffices h : ∀ (els : List Element) (c : List (List Char)),
      els.foldl
        (fun content element =>
          match element with
          | .paragraph pes => pes.foldl para_step content
          | .table rows =>
            rows.foldl
              (fun c row => row.foldl (fun c cell => cell.foldl cell_element_step c) c)
              content
          | .other => content)
        c = c ++ elements_texts els by
    have := h elements []
    simpa [extract_content_from_elements] using this
  intro els
  induction els with
  | nil => intro c; simp [elements_texts]
  | cons e rest ih =>
    intro c
    cases e with
    | paragraph pes =>
      dsimp only [List.foldl_cons]
      rw [foldl_para_step, ih]
      simp [elements_texts]
    | table rows =>
      have hrows : ∀ (rs : List (List (List Element))) (c0 : List (List Char)),
          rs.foldl
            (fun c row => row.foldl (fun c cell => cell.foldl cell_element_step c) c)
            c0 = c0 ++ (rs.map (fun row => (row.map cell_texts).flatten)).flatten := by
        intro rs
        induction rs with
        | nil => intro c0; simp
        | cons r rtl ihr =>
          intro c0
          rw [List.foldl_cons, foldl_row, ihr]
          simp
      dsimp only [List.foldl_cons]
      rw [hrows, ih]
      simp [elements_texts]
    | other =>
      dsimp only [List.foldl_cons]
      rw [ih]
      simp [elements_texts]

structure Tab where
  title : List Char
  body : List Element

structure GDocument where
  tabs : Option (List Tab)
  body : List Element

/-- Python `str.lower()` on the tab title (the titles compared here are
plain ASCII). -/
def lower_str (l : List Char) : List Char := l.map Char.toLower

/-- The `for tab in document['tabs']` scan: repeated assignment keeps the
last tab whose lowered title matches. -/
def find_tab_by_title (tabs : List Tab) (wanted : List Char) : Option Tab :=
  tabs.foldl (fun acc tab => if lower_str tab.title = wanted then some tab else acc) none

/-- The remote fetch: either the document, or an HttpError raised by the
API call. -/
inductive FetchResult where
  | ok (doc : GDocument)
  | httpError

/-- `get_document_content`.  `some text` is a normal return; `none` models
the uncaught IndexError of `document['tabs'][0]` when the tabs list is
present but empty (only HttpError is caught by the method). -/
def get_document_content (prefer_transcript : Bool) (fetched : FetchResult) :
    Option (List Char) :=
  match fetched with
  | .httpError => some []
  | .ok doc =>
    match doc.tabs with
    | none => some (extract_content_from_elements doc.body).flatten
    | some tabs =>
      let transcript_tab := find_tab_by_title tabs "transcript".toList
      let notes_tab := find_tab_by_title tabs "notes".toList
      let selected_tab :=
        if prefer_transcript && transcript_tab.isSome then transcript_tab
        else if notes_tab.isSome then notes_tab
        else none
      match selected_tab with
      | some tab => some (extract_content_from_elements tab.body).flatten
      | none =>
        match tabs with
        | [] => none
        | first :: _ => some (extract_content_from_elements first.body).flatten

/-- `get_plain_document_content`: no tab handling at all, empty text on
HttpError. -/
def get_plain_document_content (fetched : FetchResult) : List Char :=
  match fetched with
  | .httpError => []
  | .ok doc => (extract_content_from_elements doc.body).flatten

/-! ## Per-line processing lemmas -/

theorem process_line_heading2 (line : List Char) (off : Nat)
    (h : "## ".toList <+: line) :
    process_line line off =
      (line.drop 3 ++ ['\n'],
        [⟨off, off + (line.drop 3).length, FmtKind.heading 2⟩]) := by
  rw [process_line, if_pos h]
  simp

theorem not_heading2_of_heading1 (line : List Char)
    (h : "# ".toList <+: line) : ¬ ("## ".toList <+: line) := by
  obtain ⟨t, rfl⟩ := h
  intro h2
  obtain ⟨t2, heq⟩ := h2
  rw [show "## ".toList = ['#', '#', ' '] from rfl,
    show "# ".toList = ['#', ' '] from rfl] at heq
  simp at heq

theorem process_line_heading1 (line : List Char) (off : Nat)
    (h : "# ".toList <+: line) :
    process_line line off =
      (line.drop 2 ++ ['\n'],
        [⟨off, off + (line.drop 2).length, FmtKind.heading 1⟩]) := by
  rw [process_line, if_neg (not_heading2_of_heading1 line h), if_pos h]
  simp

theorem process_line_rule (line : List Char) (off : Nat)
    (h1 : ¬ ("## ".toList <+: line)) (h2 : ¬ ("# ".toList <+: line))
    (h3 : pyStrip line = "---".toList ∨ "────".toList <+: pyStrip line) :
    process_line line off = (['\n'], []) := by
  rw [process_line, if_neg h1, if_neg h2, if_pos h3]

/-- The general plain-line branch, stated through `findBold` and
`removeBold`. -/
theorem process_line_plain (line : List Char) (off : Nat)
    (h1 : ¬ ("## ".toList <+: line)) (h2 : ¬ ("# ".toList <+: line))
    (h3 : ¬ (pyStrip line = "---".toList ∨ "────".toList <+: pyStrip line))
    (h4 : ¬ (">".toList <+: pyStrip line)) :
    process_line line off =
      (removeBold (line ++ ['\n']),
        (findBold line 0).map
          (fun m => (⟨off + m.1, off + m.2 - 4, FmtKind.bold⟩ : FmtSpan))) := by
  rw [process_line, if_neg h1, if_neg h2, if_neg h3]
  simp only [if_neg h4]

/-- A plain line with no asterisk at all passes through unchanged, with no
bold span. -/
theorem process_line_no_bold (line : List Char) (off : Nat)
    (h1 : ¬ ("## ".toList <+: line)) (h2 : ¬ ("# ".toList <+: line))
    (h3 : ¬ (pyStrip line = "---".toList ∨ "────".toList <+: pyStrip line))
    (h4 : ¬ (">".toList <+: pyStrip line)) (h5 : '*' ∉ line) :
    process_line line off = (line ++ ['\n'], []) := by
  rw [process_line_plain line off h1 h2 h3 h4]
  rw [findBold_noStar line 0 h5]
  rw [removeBold_noStar (line ++ ['\n']) (by
    intro hmem
    rcases List.mem_append.mp hmem with hm | hm
    · exact h5 hm
    · simp at hm)]
  simp

/-- A plain line made of one bold marker pair between star-free pieces:
the markers are stripped and one bold span is recorded at the position of
the delimited text. -/
theorem process_line_single_bold (a b c : List Char) (off : Nat)
    (ha : '*' ∉ a) (hb : '*' ∉ b) (hc : '*' ∉ c) (hbne : b ≠ [])
    (h1 : ¬ ("## ".toList <+: (a ++ '*' :: '*' :: (b ++ '*' :: '*' :: c))))
    (h2 : ¬ ("# ".toList <+: (a ++ '*' :: '*' :: (b ++ '*' :: '*' :: c))))
    (h3 : ¬ (pyStrip (a ++ '*' :: '*' :: (b ++ '*' :: '*' :: c)) = "---".toList ∨
      "────".toList <+: pyStrip (a ++ '*' :: '*' :: (b ++ '*' :: '*' :: c))))
    (h4 : ¬ (">".toList <+: pyStrip (a ++ '*' :: '*' :: (b ++ '*' :: '*' :: c)))) :
    process_line (a ++ '*' :: '*' :: (b ++ '*' :: '*' :: c)) off =
      (a ++ b ++ c ++ ['\n'],
        [⟨off + a.length, off + a.length + b.length, FmtKind.bold⟩]) := by
  rw [process_line_plain _ off h1 h2 h3 h4]
  have hfind : findBold (a ++ '*' :: '*' :: (b ++ '*' :: '*' :: c)) 0 =
      [(a.length, a.length + b.length + 4)] := by
    rw [findBold_append_noStar a _ 0 ha, findBold_match b c (0 + a.length) hb hbne,
      findBold_noStar c _ hc]
    simp
  have hremove : removeBold ((a ++ '*' :: '*' :: (b ++ '*' :: '*' :: c)) ++ ['\n']) =
      a ++ b ++ c ++ ['\n'] := by
    have hshape : (a ++ '*' :: '*' :: (b ++ '*' :: '*' :: c)) ++ ['\n'] =
        a ++ '*' :: '*' :: (b ++ '*' :: '*' :: (c ++ ['\n'])) := by simp
    rw [hshape, removeBold_append_noStar a _ ha, removeBold_match b (c ++ ['\n']) hb hbne,
      removeBold_noStar (c ++ ['\n']) (by
        intro hmem
        rcases List.mem_append.mp hmem with hm | hm
        · exact hc hm
        · simp at hm)]
    simp
  rw [hfind, hremove]
  simp
  try omega

/-- Unfolding of the blockquote branch. -/
theorem process_line_blockquote (line : List Char) (off : Nat)
    (h1 : ¬ ("## ".toList <+: line)) (h2 : ¬ ("# ".toList <+: line))
    (h3 : ¬ (pyStrip line = "---".toList ∨ "────".toList <+: pyStrip line))
    (h4 : ">".toList <+: pyStrip line) :
    process_line line off =
      ("    ".toList ++
        (removeBold (line ++ ['\n'])).dropWhile (fun c => c = '>' || c = ' '),
        (findBold line 0).map
          (fun m => (⟨off + m.1, off + m.2 - 4, FmtKind.bold⟩ : FmtSpan))) := by
  rw [process_line, if_neg h1, if_neg h2, if_neg h3]
  simp only [if_pos h4]

theorem dropWhile_append_single (p : Char → Bool) (t : List Char) (x : Char)
    (hx : p x = false) : (t ++ [x]).dropWhile p = t.dropWhile p ++ [x] := by
  induction t with
  | nil => simp [List.dropWhile, hx]
  | cons c rest ih =>
    by_cases hc : p c
    · simp [List.dropWhile, hc, ih]
    · simp [List.dropWhile, hc]

/-- Whatever its classification, one input line (which carries no newline
itself) contributes a fragment of the form `t ++ ['\n']` with no newline
in `t`: at least one character, ending in exactly one newline. -/
theorem process_line_chunk_newline (line : List Char) (off : Nat)
    (hnl : '\n' ∉ line) :
    ∃ t, (process_line line off).1 = t ++ ['\n'] ∧ '\n' ∉ t := by
  by_cases h1 : "## ".toList <+: line
  · rw [process_line_heading2 line off h1]
    exact ⟨line.drop 3, rfl, fun hm => hnl (List.mem_of_mem_drop hm)⟩
  · by_cases h2 : "# ".toList <+: line
    · rw [process_line_heading1 line off h2]
      exact ⟨line.drop 2, rfl, fun hm => hnl (List.mem_of_mem_drop hm)⟩
    · by_cases h3 : pyStrip line = "---".toList ∨ "────".toList <+: pyStrip line
      · rw [process_line_rule line off h1 h2 h3]
        exact ⟨[], rfl, by simp⟩
      · have hrb : '\n' ∉ removeBold line := fun hm =>
          hnl (mem_of_mem_removeBold line '\n' hm)
        by_cases h4 : ">".toList <+: pyStrip line
        · rw [process_line_blockquote line off h1 h2 h3 h4]
          rw [removeBold_append_newline line]
          rw [dropWhile_append_single _ (removeBold line) '\n' (by decide)]
          refine ⟨"    ".toList ++ (removeBold line).dropWhile (fun c => c = '>' || c = ' '),
            by simp, ?_⟩
          intro hm
          rcases List.mem_append.mp hm with hm | hm
          · simp at hm
          · exact hrb ((List.dropWhile_sublist _).subset hm)
        · rw [process_line_plain line off h1 h2 h3 h4]
          rw [removeBold_append_newline line]
          exact ⟨removeBold line, rfl, hrb⟩

theorem convert_lines_cons (l : List Char) (ls : List (List Char)) (off : Nat) :
    convert_lines (l :: ls) off =
      ((process_line l off).1 ++ (convert_lines ls (off + (process_line l off).1.length)).1,
        (process_line l off).2 ++ (convert_lines ls (off + (process_line l off).1.length)).2) := by
  rfl

/-- The flattened text of a non-empty newline-free line list ends in a
newline. -/
theorem convert_lines_ends_newline (ls : List (List Char)) (off : Nat)
    (hne : ls ≠ []) (hnl : ∀ l ∈ ls, '\n' ∉ l) :
    ∃ t, (convert_lines ls off).1 = t ++ ['\n'] := by
  induction ls generalizing off with
  | nil => exact absurd rfl hne
  | cons l rest ih =>
    rcases rest with _ | ⟨l2, rest2⟩
    · obtain ⟨t, ht, _⟩ := process_line_chunk_newline l off (hnl l (by simp))
      refine ⟨t, ?_⟩
      rw [convert_lines_cons, ht]
      simp [convert_lines]
    · obtain ⟨t2, ht2⟩ := ih (off + (process_line l off).1.length) (by simp)
        (fun m hm => hnl m (by simp [hm]))
      refine ⟨(process_line l off).1 ++ t2, ?_⟩
      rw [convert_lines_cons, ht2]
      simp

/-- The flattened text of any input is non-empty and ends in a newline. -/
theorem full_text_ends_newline (content : List Char) :
    ∃ t, (full_text_and_map content).1 = t ++ ['\n'] := by
  rw [full_text_and_map]
  exact convert_lines_ends_newline (split_lines content) 0
    (split_lines_ne_nil content)
    (fun l hl => no_newline_of_mem_split_lines content l hl)

/-! ## Tab search lemmas -/

theorem find_tab_aux_none (tabs : List Tab) (wanted : List Char)
    (acc : Option Tab) (h : ∀ t ∈ tabs, lower_str t.title ≠ wanted) :
    tabs.foldl (fun acc tab => if lower_str tab.title = wanted then some tab else acc) acc
      = acc := by
  induction tabs generalizing acc with
  | nil => rfl
  | cons tab rest ih =>
    rw [List.foldl_cons, if_neg (h tab (by simp))]
    exact ih acc (fun t ht => h t (by simp [ht]))

theorem find_tab_aux_mem (tabs : List Tab) (wanted : List Char)
    (acc : Option Tab) (t : Tab)
    (h : tabs.foldl (fun acc tab => if lower_str tab.title = wanted then some tab else acc) acc
      = some t) :
    (t ∈ tabs ∧ lower_str t.title = wanted) ∨ acc = some t := by
  induction tabs generalizing acc with
  | nil => exact Or.inr h
  | cons tab rest ih =>
    rw [List.foldl_cons] at h
    rcases ih _ h with ⟨hmem, hp⟩ | hacc
    · exact Or.inl ⟨by simp [hmem], hp⟩
    · by_cases hc : lower_str tab.title = wanted
      · rw [if_pos hc] at hacc
        injection hacc with hacc
        exact Or.inl ⟨by simp [← hacc], by rw [← hacc]; exact hc⟩
      · rw [if_neg hc] at hacc
        exact Or.inr hacc

theorem find_tab_aux_isSome (tabs : List Tab) (wanted : List Char)
    (acc : Option Tab) (h : acc.isSome ∨ ∃ t ∈ tabs, lower_str t.title = wanted) :
    (tabs.foldl (fun acc tab => if lower_str tab.title = wanted then some tab else acc) acc).isSome := by
  induction tabs generalizing acc with
  | nil =>
    rcases h with h | ⟨t, ht, _⟩
    · exact h
    · exact absurd ht (by simp)
  | cons tab rest ih =>
    rw [List.foldl_cons]
    by_cases hc : lower_str tab.title = wanted
    · rw [if_pos hc]
      exact ih (some tab) (Or.inl rfl)
    · rw [if_neg hc]
      apply ih acc
      rcases h with h | ⟨t, ht, hp⟩
      · exact Or.inl h
      · rcases List.mem_cons.mp ht with rfl | hmem
        · exact absurd hp hc
        · exact Or.inr ⟨t, hmem, hp⟩

theorem find_tab_by_title_mem (tabs : List Tab) (wanted : List Char) (t : Tab)
    (h : find_tab_by_title tabs wanted = some t) :
    t ∈ tabs ∧ lower_str t.title = wanted := by
  rcases find_tab_aux_mem tabs wanted none t h with hgood | hbad
  · exact hgood
  · exact absurd hbad (by simp)

theorem find_tab_by_title_isSome (tabs : List Tab) (wanted : List Char)
    (h : ∃ t ∈ tabs, lower_str t.title = wanted) :
    (find_tab_by_title tabs wanted).isSome :=
  find_tab_aux_isSome tabs wanted none (Or.inr h)

theorem find_tab_by_title_none (tabs : List Tab) (wanted : List Char)
    (h : ∀ t ∈ tabs, lower_str t.title ≠ wanted) :
    find_tab_by_title tabs wanted = none :=
  find_tab_aux_none tabs wanted none h

/-! ## Claim theorems -/

/-- C10: for every input text, including the empty string, the flattened
text built by `_convert_markdown_to_docs_requests` is non-empty and its
final character is a newline; every input line, whatever its
classification, contributes at least one character, ending in exactly one
trailing newline (a fragment `t ++ ['\n']` with no newline inside `t`). -/
theorem c10_flattened_text_ends_newline :
    ∀ content : List Char,
      (full_text_and_map content).1 ≠ [] ∧
      ((full_text_and_map content).1).getLast? = some '\n' ∧
      ∀ line ∈ split_lines content, ∀ off : Nat,
        (process_line line off).1 ≠ [] ∧
        ∃ t, (process_line line off).1 = t ++ ['\n'] ∧ '\n' ∉ t := by
  intro content
  obtain ⟨t, ht⟩ := full_text_ends_newline content
  refine ⟨by rw [ht]; simp, by rw [ht]; simp, ?_⟩
  intro line hline off
  obtain ⟨t2, ht2, hnl⟩ := process_line_chunk_newline line off
    (no_newline_of_mem_split_lines content line hline)
  exact ⟨by rw [ht2]; simp, t2, ht2, hnl⟩

/-- C7: an empty flattened text would yield an empty request list
(vacuously so: the flattened text is never empty); a non-empty flattened
text yields a request list containing the InsertText of the whole text;
and no InsertText with empty text is ever emitted, so `create_document`
never submits a zero-length insertion. -/
theorem c7_no_zero_length_insert :
    ∀ content : List Char,
      ((full_text_and_map content).1 = [] →
        convert_markdown_to_docs_requests content = []) ∧
      ((full_text_and_map content).1 ≠ [] →
        DocsRequest.insertText 1 (full_text_and_map content).1 ∈
          convert_markdown_to_docs_requests content) ∧
      ∀ idx : Nat, ∀ text : List Char,
        DocsRequest.insertText idx text ∈ convert_markdown_to_docs_requests content →
          text ≠ [] := by
  intro content
  obtain ⟨t, ht⟩ := full_text_ends_newline content
  refine ⟨?_, ?_, ?_⟩
  · intro h
    rw [ht] at h
    exact absurd h (by simp)
  · intro _
    rw [convert_markdown_to_docs_requests]
    exact List.mem_cons_self _ _
  · intro idx text hmem
    rw [convert_markdown_to_docs_requests] at hmem
    rcases List.mem_cons.mp hmem with h | h
    · injection h with _ h2
      rw [h2, ht]
      simp
    · obtain ⟨sp, _, heq⟩ := List.mem_map.mp h
      rcases hk : sp.kind with lvl | _
      · rw [span_to_request, hk] at heq
        exact absurd heq (by simp)
      · rw [span_to_request, hk] at heq
        exact absurd heq (by simp)

/-- C6: the emitted request list is exactly one InsertText of the whole
flattened text followed by one style request per collected span; the
style requests are the spans in descending order of start offset, each
range shifted by the fixed +1 into 1-based indexing; heading spans become
paragraph-level requests and bold spans text-level requests; no style
request is an InsertText. -/
theorem c6_emitter_shape :
    ∀ content : List Char,
      ∃ sorted : List FmtSpan,
        convert_markdown_to_docs_requests content =
          DocsRequest.insertText 1 (full_text_and_map content).1 ::
            sorted.map span_to_request ∧
        List.Perm sorted (full_text_and_map content).2 ∧
        sorted.Pairwise (fun a b => b.start ≤ a.start) ∧
        (∀ s : FmtSpan, ∀ lvl : Nat, s.kind = FmtKind.heading lvl →
          span_to_request s = DocsRequest.updateParagraphStyle (s.start + 1) (s.stop + 1) lvl) ∧
        (∀ s : FmtSpan, s.kind = FmtKind.bold →
          span_to_request s = DocsRequest.updateTextStyle (s.start + 1) (s.stop + 1) true) ∧
        (∀ s : FmtSpan, ∀ idx : Nat, ∀ text : List Char,
          span_to_request s ≠ DocsRequest.insertText idx text) := by
  intro content
  refine ⟨sort_desc (full_text_and_map content).2, rfl,
    sort_desc_perm _, sort_desc_sorted _, ?_, ?_, ?_⟩
  · intro s lvl hk
    rw [span_to_request, hk]
  · intro s hk
    rw [span_to_request, hk]
  · intro s idx text
    rcases hk : s.kind with lvl | _
    · rw [span_to_request, hk]
      simp
    · rw [span_to_request, hk]
      simp

/-- C4: a heading line (prefix `"## "` or `"# "`) is stripped of its
prefix, the remaining text plus one newline is appended, and the recorded
heading span runs from the line start to start + appended_length − 1:
the appended fragment is `stripped ++ ['\n']` of length
`stripped.length + 1`, and the span's stop offset is
`start + stripped.length`, so the trailing newline is excluded. -/
theorem c4_heading_span_excludes_newline :
    ∀ (line : List Char) (off : Nat),
      ("## ".toList <+: line →
        process_line line off =
          (line.drop 3 ++ ['\n'],
            [⟨off, off + (line.drop 3).length, FmtKind.heading 2⟩]) ∧
        (line.drop 3 ++ ['\n']).length - 1 = (line.drop 3).length) ∧
      ("# ".toList <+: line →
        process_line line off =
          (line.drop 2 ++ ['\n'],
            [⟨off, off + (line.drop 2).length, FmtKind.heading 1⟩]) ∧
        (line.drop 2 ++ ['\n']).length - 1 = (line.drop 2).length) := by
  intro line off
  constructor
  · intro h
    exact ⟨process_line_heading2 line off h, by simp⟩
  · intro h
    exact ⟨process_line_heading1 line off h, by simp⟩

/-- C8: when the remote fetch raises HttpError, both extraction entry
points catch it, log, and return the empty text — a normal `some []` /
`[]` return, not a propagated exception. -/
theorem c8_fetch_failure_returns_empty :
    ∀ prefer_transcript : Bool,
      get_document_content prefer_transcript FetchResult.httpError = some [] ∧
      get_plain_document_content FetchResult.httpError = [] :=
  fun _ => ⟨rfl, rfl⟩

/-- A table whose single cell contains another table with a paragraph:
the claimed recursive traversal reaches the inner text run, the code's
one-level scan does not. -/
def nested_table_example : List Element :=
  [Element.table [[[Element.table [[[Element.paragraph [ParaElem.textRun "X".toList]]]]]]]]

/-- C2 counterexample: on a table nested inside a table cell the code
extracts nothing, while the traversal the claim describes (recursing into
each cell's child nodes) yields the inner text run "X". -/
theorem c2_nested_table_counterexample :
    (extract_content_from_elements nested_table_example).flatten = [] ∧
    spec_flatten_elements nested_table_example = "X".toList ∧
    ¬ ((extract_content_from_elements nested_table_example).flatten =
        spec_flatten_elements nested_table_example) := by
  have h1 : (extract_content_from_elements nested_table_example).flatten = [] := by
    decide
  have h2 : spec_flatten_elements nested_table_example = "X".toList := by
    simp only [nested_table_example, spec_flatten_elements.eq_def,
      spec_flatten_element.eq_def, spec_flatten_rows.eq_def,
      spec_flatten_cells.eq_def, para_texts]
    decide
  refine ⟨h1, h2, ?_⟩
  rw [h1, h2]
  decide

/-- C2 amended: extraction is the ordered concatenation of text runs in
document order where paragraphs yield their runs in order and tables
yield rows, then cells, then the runs of each cell's paragraph children —
one level only: a table nested inside a cell contributes no text.  Nodes
of unrecognized kind contribute no text and never raise (extraction is a
total function that skips them). -/
theorem c2_table_extraction_amended :
    (∀ elements : List Element,
      extract_content_from_elements elements = elements_texts elements) ∧
    (∀ elements : List Element,
      extract_content_from_elements (Element.other :: elements) =
        extract_content_from_elements elements) := by
  constructor
  · exact extract_content_eq_elements_texts
  · intro elements
    rfl

/-- C1: the line `"**A** and **B**"` flattens to `"A and B\n"` (length
8), but the recorded bold spans are (0,1) and (10,11): the second span
keeps the coordinates of the original line, ignoring the four characters
stripped from the first pair, and even points past the flattened text —
it does not cover "B", which sits at offsets 6..7. -/
theorem c1_multi_bold_offset_bug :
    full_text_and_map "**A** and **B**".toList =
      ("A and B\n".toList,
        [⟨0, 1, FmtKind.bold⟩, ⟨10, 11, FmtKind.bold⟩]) ∧
    ("A and B\n".toList).length = 8 ∧
    ¬ (∀ s ∈ (full_text_and_map "**A** and **B**".toList).2,
        s.stop ≤ ("A and B\n".toList).length) := by
  have hline : "**A** and **B**".toList =
      '*' :: '*' :: ("A".toList ++ '*' :: '*' ::
        (" and ".toList ++ '*' :: '*' :: ("B".toList ++ '*' :: '*' :: ([] : List Char)))) := by
    decide
  have hfind : findBold ("**A** and **B**".toList) 0 = [(0, 5), (10, 15)] := by
    rw [hline]
    rw [show ('*' :: '*' :: ("A".toList ++ '*' :: '*' ::
        (" and ".toList ++ '*' :: '*' :: ("B".toList ++ '*' :: '*' :: ([] : List Char))))) =
      '*' :: '*' :: ("A".toList ++ '*' :: '*' ::
        (" and ".toList ++ ('*' :: '*' :: ("B".toList ++ '*' :: '*' :: ([] : List Char))))) from rfl]
    rw [findBold_match "A".toList _ 0 (by decide) (by decide)]
    rw [findBold_append_noStar " and ".toList _ _ (by decide)]
    rw [findBold_match "B".toList _ _ (by decide) (by decide)]
    rw [findBold_nil]
    decide
  have hremove : removeBold ("**A** and **B**".toList ++ ['\n']) = "A and B\n".toList := by
    have hline2 : "**A** and **B**".toList ++ ['\n'] =
        '*' :: '*' :: ("A".toList ++ '*' :: '*' ::
          (" and ".toList ++ '*' :: '*' :: ("B".toList ++ '*' :: '*' :: ['\n']))) := by
      decide
    rw [hline2]
    rw [removeBold_match "A".toList _ (by decide) (by decide)]
    rw [removeBold_append_noStar " and ".toList _ (by decide)]
    rw [removeBold_match "B".toList _ (by decide) (by decide)]
    rw [removeBold_noStar ['\n'] (by decide)]
    decide
  have hproc : process_line "**A** and **B**".toList 0 =
      ("A and B\n".toList, [⟨0, 1, FmtKind.bold⟩, ⟨10, 11, FmtKind.bold⟩]) := by
    rw [process_line_plain _ 0 (by decide) (by decide) (by decide) (by decide)]
    rw [hfind, hremove]
    decide
  have hmain : full_text_and_map "**A** and **B**".toList =
      ("A and B\n".toList, [⟨0, 1, FmtKind.bold⟩, ⟨10, 11, FmtKind.bold⟩]) := by
    rw [full_text_and_map]
    rw [show split_lines "**A** and **B**".toList = ["**A** and **B**".toList] by decide]
    rw [convert_lines_cons, hproc]
    simp [convert_lines]
  refine ⟨hmain, by decide, ?_⟩
  intro hall
  have := hall ⟨10, 11, FmtKind.bold⟩ (by rw [hmain]; simp)
  simp at this

/-- C9: the degenerate heading line `"## "` (empty heading text) is a
counterexample to the span invariant: the code records a heading span
with start = stop = 0, violating `start < stop`. -/
theorem c9_span_invariant_violated :
    full_text_and_map "## ".toList = (['\n'], [⟨0, 0, FmtKind.heading 2⟩]) ∧
    ¬ (∀ s ∈ (full_text_and_map "## ".toList).2, s.start < s.stop) := by
  have hproc : process_line "## ".toList 0 = (['\n'], [⟨0, 0, FmtKind.heading 2⟩]) := by
    rw [process_line_heading2 "## ".toList 0 (by decide)]
    decide
  have hmain : full_text_and_map "## ".toList = (['\n'], [⟨0, 0, FmtKind.heading 2⟩]) := by
    rw [full_text_and_map]
    rw [show split_lines "## ".toList = ["## ".toList] by decide]
    rw [convert_lines_cons, hproc]
    simp [convert_lines]
  refine ⟨hmain, ?_⟩
  intro hall
  have := hall ⟨0, 0, FmtKind.heading 2⟩ (by rw [hmain]; simp)
  simp at this

/-- C5: a plain line holding exactly one bold marker pair (star-free
prefix `a`, non-empty star-free content `b`, star-free suffix `c`) is
appended with the two `**` markers removed plus a trailing newline, and
one bold span is recorded covering exactly the delimited text `b` in
flattened-text coordinates: offsets `off + a.length` up to (exclusively)
`off + a.length + b.length`. -/
theorem c5_single_bold_span (a b c : List Char) (off : Nat)
    (ha : '*' ∉ a) (hb : '*' ∉ b) (hc : '*' ∉ c) (hbne : b ≠ [])
    (h1 : ¬ ("## ".toList <+: (a ++ '*' :: '*' :: (b ++ '*' :: '*' :: c))))
    (h2 : ¬ ("# ".toList <+: (a ++ '*' :: '*' :: (b ++ '*' :: '*' :: c))))
    (h3 : ¬ (pyStrip (a ++ '*' :: '*' :: (b ++ '*' :: '*' :: c)) = "---".toList ∨
      "────".toList <+: pyStrip (a ++ '*' :: '*' :: (b ++ '*' :: '*' :: c))))
    (h4 : ¬ (">".toList <+: pyStrip (a ++ '*' :: '*' :: (b ++ '*' :: '*' :: c)))) :
    process_line (a ++ '*' :: '*' :: (b ++ '*' :: '*' :: c)) off =
      (a ++ b ++ c ++ ['\n'],
        [⟨off + a.length, off + a.length + b.length, FmtKind.bold⟩]) ∧
    ((a ++ b ++ c ++ ['\n']).drop a.length).take b.length = b ∧
    convert_lines [a ++ '*' :: '*' :: (b ++ '*' :: '*' :: c)] off =
      (a ++ b ++ c ++ ['\n'],
        [⟨off + a.length, off + a.length + b.length, FmtKind.bold⟩]) := by
  have hmain := process_line_single_bold a b c off ha hb hc hbne h1 h2 h3 h4
  refine ⟨hmain, ?_, ?_⟩
  · rw [show a ++ b ++ c ++ ['\n'] = a ++ (b ++ (c ++ ['\n'])) by simp]
    rw [List.drop_left, List.take_left]
  · rw [convert_lines_cons, hmain]
    simp [convert_lines]

/-- C5 witness: the spec's concrete instance, `"Revenue **up** this
quarter"`, flattens to `"Revenue up this quarter\n"` with one bold span
at offsets 8..10 covering exactly `"up"`. -/
theorem c5_single_bold_span_witness :
    process_line ("Revenue ".toList ++ '*' :: '*' :: ("up".toList ++ '*' :: '*' :: " this quarter".toList)) 0 =
      ("Revenue ".toList ++ "up".toList ++ " this quarter".toList ++ ['\n'],
        [⟨0 + "Revenue ".toList.length,
          0 + "Revenue ".toList.length + "up".toList.length, FmtKind.bold⟩]) ∧
    (("Revenue ".toList ++ "up".toList ++ " this quarter".toList ++ ['\n']).drop
      "Revenue ".toList.length).take "up".toList.length = "up".toList ∧
    convert_lines ["Revenue ".toList ++ '*' :: '*' :: ("up".toList ++ '*' :: '*' :: " this quarter".toList)] 0 =
      ("Revenue ".toList ++ "up".toList ++ " this quarter".toList ++ ['\n'],
        [⟨0 + "Revenue ".toList.length,
          0 + "Revenue ".toList.length + "up".toList.length, FmtKind.bold⟩]) :=
  c5_single_bold_span "Revenue ".toList "up".toList " this quarter".toList 0
    (by decide) (by decide) (by decide) (by decide)
    (by decide) (by decide) (by decide) (by decide)

/-- Reduction of `get_document_content` on a document with a tabs list. -/
theorem get_document_content_tabs_eq (p : Bool) (tabs : List Tab) (body : List Element) :
    get_document_content p (FetchResult.ok ⟨some tabs, body⟩) =
      (match (if p && (find_tab_by_title tabs "transcript".toList).isSome
          then find_tab_by_title tabs "transcript".toList
          else if (find_tab_by_title tabs "notes".toList).isSome
          then find_tab_by_title tabs "notes".toList
          else none) with
        | some tab => some (extract_content_from_elements tab.body).flatten
        | none =>
          match tabs with
          | [] => none
          | first :: _ => some (extract_content_from_elements first.body).flatten) := rfl

/-- C3: tab selection is deterministic and picks exactly one tab.  With
`prefer_transcript` and a case-insensitively "Transcript"-named tab
present, a Transcript tab's body is extracted; otherwise with a
"Notes"-named tab present, a Notes tab's body; otherwise the first tab's
body — always a normal return, never an error.  A document without a tabs
list has its top-level body extracted. -/
theorem c3_tab_selection :
    ∀ (p : Bool) (first : Tab) (rest : List Tab) (body : List Element),
      (∃ r, get_document_content p (FetchResult.ok ⟨some (first :: rest), body⟩) = some r) ∧
      ((p = true ∧ ∃ t ∈ first :: rest, lower_str t.title = "transcript".toList) →
        ∃ t ∈ first :: rest, lower_str t.title = "transcript".toList ∧
          get_document_content p (FetchResult.ok ⟨some (first :: rest), body⟩) =
            some (extract_content_from_elements t.body).flatten) ∧
      (¬ (p = true ∧ ∃ t ∈ first :: rest, lower_str t.title = "transcript".toList) →
        (∃ t ∈ first :: rest, lower_str t.title = "notes".toList) →
        ∃ t ∈ first :: rest, lower_str t.title = "notes".toList ∧
          get_document_content p (FetchResult.ok ⟨some (first :: rest), body⟩) =
            some (extract_content_from_elements t.body).flatten) ∧
      (¬ (p = true ∧ ∃ t ∈ first :: rest, lower_str t.title = "transcript".toList) →
        ¬ (∃ t ∈ first :: rest, lower_str t.title = "notes".toList) →
        get_document_content p (FetchResult.ok ⟨some (first :: rest), body⟩) =
          some (extract_content_from_elements first.body).flatten) ∧
      (get_document_content p (FetchResult.ok ⟨none, body⟩) =
        some (extract_content_from_elements body).flatten) := by
  intro p first rest body
  have heq := get_document_content_tabs_eq p (first :: rest) body
  rcases hT : find_tab_by_title (first :: rest) "transcript".toList with _ | t
  · rcases hN : find_tab_by_title (first :: rest) "notes".toList with _ | n
    · -- no transcript, no notes: first tab
      rw [hT, hN] at heq
      simp only [Option.isSome_none, Bool.and_false, Bool.false_eq_true,
        if_false, ite_self] at heq
      have hres : get_document_content p (FetchResult.ok ⟨some (first :: rest), body⟩) =
          some (extract_content_from_elements first.body).flatten := by
        rw [heq]
      refine ⟨⟨_, hres⟩, ?_, ?_, fun _ _ => hres, rfl⟩
      · rintro ⟨hp, t0, ht0, htitle⟩
        have := find_tab_by_title_isSome (first :: rest) "transcript".toList ⟨t0, ht0, htitle⟩
        rw [hT] at this
        simp at this
      · rintro _ ⟨n0, hn0, hntitle⟩
        have := find_tab_by_title_isSome (first :: rest) "notes".toList ⟨n0, hn0, hntitle⟩
        rw [hN] at this
        simp at this
    · -- notes found, no transcript
      rw [hT, hN] at heq
      simp only [Option.isSome_none, Bool.and_false, Bool.false_eq_true, if_false,
        Option.isSome_some, if_true] at heq
      have hres : get_document_content p (FetchResult.ok ⟨some (first :: rest), body⟩) =
          some (extract_content_from_elements n.body).flatten := by
        rw [heq]
      obtain ⟨hnmem, hntitle⟩ := find_tab_by_title_mem (first :: rest) "notes".toList n hN
      refine ⟨⟨_, hres⟩, ?_, fun _ _ => ⟨n, hnmem, hntitle, hres⟩, ?_, rfl⟩
      · rintro ⟨hp, t0, ht0, htitle⟩
        have := find_tab_by_title_isSome (first :: rest) "transcript".toList ⟨t0, ht0, htitle⟩
        rw [hT] at this
        simp at this
      · intro _ hno
        exact absurd ⟨n, hnmem, hntitle⟩ hno
  · -- transcript found
    obtain ⟨htmem, httitle⟩ := find_tab_by_title_mem (first :: rest) "transcript".toList t hT
    cases p with
    | true =>
      rw [hT] at heq
      simp only [Option.isSome_some, Bool.and_true, Bool.true_and, if_true] at heq
      have hres : get_document_content true (FetchResult.ok ⟨some (first :: rest), body⟩) =
          some (extract_content_from_elements t.body).flatten := by
        rw [heq]
      refine ⟨⟨_, hres⟩, fun _ => ⟨t, htmem, httitle, hres⟩, ?_, ?_, rfl⟩
      · intro hno _
        exact absurd ⟨rfl, t, htmem, httitle⟩ hno
      · intro hno _
        exact absurd ⟨rfl, t, htmem, httitle⟩ hno
    | false =>
      rw [hT] at heq
      simp only [Bool.false_and, Bool.false_eq_true, if_false] at heq
      rcases hN : find_tab_by_title (first :: rest) "notes".toList with _ | n
      · rw [hN] at heq
        simp only [Option.isSome_none, if_false, ite_self] at heq
        have hres : get_document_content false (FetchResult.ok ⟨some (first :: rest), body⟩) =
            some (extract_content_from_elements first.body).flatten := by
          rw [heq]
        refine ⟨⟨_, hres⟩, ?_, ?_, fun _ _ => hres, rfl⟩
        · rintro ⟨hp, _⟩
          exact absurd hp (by simp)
        · rintro _ ⟨n0, hn0, hntitle⟩
          have := find_tab_by_title_isSome (first :: rest) "notes".toList ⟨n0, hn0, hntitle⟩
          rw [hN] at this
          simp at this
      · rw [hN] at heq
        simp only [Option.isSome_some, if_true] at heq
        have hres : get_document_content false (FetchResult.ok ⟨some (first :: rest), body⟩) =
            some (extract_content_from_elements n.body).flatten := by
          rw [heq]
        obtain ⟨hnmem, hntitle⟩ := find_tab_by_title_mem (first :: rest) "notes".toList n hN
        refine ⟨⟨_, hres⟩, ?_, fun _ _ => ⟨n, hnmem, hntitle, hres⟩, ?_, rfl⟩
        · rintro ⟨hp, _⟩
          exact absurd hp (by simp)
        · intro _ hno
          exact absurd ⟨n, hnmem, hntitle⟩ hno

end DocIdea
